import Mathlib

set_option maxHeartbeats 1000000

/- Shallow embedding of the crossword CSP solver `generate.py`
(`CrosswordCreator`) from the CS50AI repository, together with the Grid
Model contract of `crossword.py` described in the specification.  Python
sets and dicts are rendered as lists in a fixed iteration order; the
mutable `self.domains` store is rendered as a function from variables to
word lists that is threaded explicitly through the operations that write
it. -/

/-- Direction of a slot: ACROSS or DOWN. -/
inductive Direction where
  | across
  | down
deriving DecidableEq

/-- A crossword variable (slot): starting row `i`, starting column `j`,
direction, and length.  Equality is value-based on all four fields. -/
structure Variable where
  i : Nat
  j : Nat
  dir : Direction
  length : Nat
deriving DecidableEq

/-- Words are lists of characters (Python strings). -/
abbrev Word := List Char

/-- Character access `w[k]` of Python, made total via a default character;
every use in the development is guarded by in-range hypotheses. -/
def charAt (w : Word) (k : Nat) : Char := w.getD k ' '

/-- Modelled from the spec: the Grid Model (class `Crossword` of
`crossword.py`, which is not among the sources): the fixed list of slots,
the vocabulary, and the overlap relation, where `overlaps a b` is `none`
when the slots do not cross and otherwise the offset pair into the two
slots.  Lists stand for Python sets with a fixed iteration order. -/
structure Crossword where
  vars : List Variable
  words : List Word
  overlaps : Variable → Variable → Option (Nat × Nat)

/-- Modelled from the spec: `neighbors(v)` of the Grid Model returns the
slots distinct from `v` that cross it per the Overlap relation. -/
def neighbors (c : Crossword) (v : Variable) : List Variable :=
  c.vars.filter (fun w => !(w == v) && (c.overlaps v w).isSome)

/-- The Domain Store: the current candidate words of every slot. -/
abbrev Domains := Variable → List Word

/-- Pointwise update of the Domain Store at one slot. -/
def updateD (d : Domains) (x : Variable) (l : List Word) : Domains :=
  fun v => if v = x then l else d v

/-- Domain Store as initialized in `CrosswordCreator.__init__`: every slot
starts with a copy of the full vocabulary. -/
def initDomains (c : Crossword) : Domains := fun _ => c.words

/-- An assignment: a Python dict from variables to words, rendered as a
list of pairs in insertion order (keys unique in every reachable state). -/
abbrev Assignment := List (Variable × Word)

/-- Key membership test of a Python dict. -/
def hasKey (a : Assignment) (v : Variable) : Bool :=
  a.any (fun p => p.1 == v)

/-- Dict lookup, returning the word of the first entry with the given key
(unique in every reachable state). -/
def lookupA (a : Assignment) (v : Variable) : Word :=
  ((a.find? (fun p => p.1 == v)).map Prod.snd).getD []

/-- Method `enforce_node_consistency`: for every slot remove the candidate
words whose length differs from the slot's length. -/
def enforce_node_consistency (d : Domains) : Domains :=
  fun v => (d v).filter (fun w => w.length == v.length)

/-- Inner loop of `revise` over `self.domains[y]`: a word `wx` of `x` is
kept exactly when some `wy` of `y` matches it at the overlap offsets and
differs from it. -/
def supported (dy : List Word) (ij : Nat × Nat) (wx : Word) : Bool :=
  dy.any (fun wy => charAt wx ij.1 == charAt wy ij.2 && !(wx == wy))

/-- Method `revise(x, y)`: the returned flag together with the updated
Domain Store. -/
def revise (c : Crossword) (x y : Variable) (d : Domains) : Bool × Domains :=
  match c.overlaps x y with
  | none => (false, d)
  | some ij =>
    let removeFromX := (d x).filter (fun wx => !(supported (d y) ij wx))
    if removeFromX.length = 0 then (false, d)
    else (true, updateD d x ((d x).filter (fun wx => supported (d y) ij wx)))

theorem length_filter_lt_of_mem {α : Type} {p : α → Bool} {l : List α} {x : α}
    (hx : x ∈ l) (hpx : p x = false) : (l.filter p).length < l.length := by
  induction l with
  | nil => cases hx
  | cons b t ih =>
    rcases List.mem_cons.mp hx with h | h
    · subst h
      simp only [List.filter_cons, hpx, List.length_cons]
      exact Nat.lt_succ_of_le (List.length_filter_le p t)
    · simp only [List.filter_cons, List.length_cons]
      cases hpb : p b
      · exact Nat.lt_succ_of_lt (ih h)
      · simpa using Nat.succ_lt_succ (ih h)

theorem revise_snd_of_fst_false {c : Crossword} {x y : Variable} {d : Domains}
    (h : (revise c x y d).1 = false) : (revise c x y d).2 = d := by
  unfold revise at *
  cases hov : c.overlaps x y with
  | none => simp [hov]
  | some ij =>
    simp only [hov] at h ⊢
    by_cases hz : ((d x).filter (fun wx => !(supported (d y) ij wx))).length = 0
    · simp [hz]
    · simp [hz] at h

theorem revise_snd_ne {c : Crossword} {x y : Variable} {d : Domains} {v : Variable}
    (hv : v ≠ x) : (revise c x y d).2 v = d v := by
  unfold revise
  cases hov : c.overlaps x y with
  | none => rfl
  | some ij =>
    by_cases hz : ((d x).filter (fun wx => !(supported (d y) ij wx))).length = 0
    · simp [hz]
    · simp [hz, updateD, hv]

theorem revise_shrink {c : Crossword} {x y : Variable} {d : Domains}
    (h : (revise c x y d).1 = true) :
    ((revise c x y d).2 x).length < (d x).length := by
  unfold revise at *
  cases hov : c.overlaps x y with
  | none => simp [hov] at h
  | some ij =>
    simp only [hov] at h ⊢
    by_cases hz : ((d x).filter (fun wx => !(supported (d y) ij wx))).length = 0
    · simp [hz] at h
    · simp only [hz, if_false, updateD, if_pos rfl]
      rcases List.exists_mem_of_length_pos (Nat.pos_of_ne_zero hz) with ⟨wx, hwx⟩
      have hmem := List.mem_filter.mp hwx
      refine length_filter_lt_of_mem hmem.1 ?_
      simpa using hmem.2

theorem revise_subset {c : Crossword} {x y : Variable} {d : Domains}
    {v : Variable} {w : Word} (h : w ∈ (revise c x y d).2 v) : w ∈ d v := by
  unfold revise at h
  cases hov : c.overlaps x y with
  | none => simpa [hov] using h
  | some ij =>
    simp only [hov] at h
    by_cases hz : ((d x).filter (fun wx => !(supported (d y) ij wx))).length = 0
    · simpa [hz] using h
    · simp only [hz, if_false, updateD] at h
      by_cases hvx : v = x
      · subst hvx
        simp only [if_pos rfl] at h
        exact (List.mem_filter.mp h).1
      · simpa [hvx] using h

/-- Total size of the Domain Store over the slot list (termination measure
helper for `ac3`). -/
def domSize (c : Crossword) (d : Domains) : Nat :=
  (c.vars.map (fun v => (d v).length)).sum

/-- Number of worklist arcs whose first component is not a slot of the
crossword (termination measure helper for `ac3`). -/
def badCount (c : Crossword) (arcs : List (Variable × Variable)) : Nat :=
  (arcs.filter (fun p => !(decide (p.1 ∈ c.vars)))).length

/-- Termination measure of the `ac3` worklist loop. -/
def ac3Measure (c : Crossword) (arcs : List (Variable × Variable)) (d : Domains) : Nat :=
  (domSize c d + badCount c arcs) * (c.vars.length + 1) + arcs.length

theorem sum_map_le {l : List Variable} {f g : Variable → Nat}
    (hle : ∀ v ∈ l, g v ≤ f v) : (l.map g).sum ≤ (l.map f).sum := by
  induction l with
  | nil => simp
  | cons b t ih =>
    simp only [List.map_cons, List.sum_cons]
    exact Nat.add_le_add (hle b (List.mem_cons_self b t))
      (ih (fun v hv => hle v (List.mem_cons_of_mem b hv)))

theorem sum_map_lt {l : List Variable} {f g : Variable → Nat} {x : Variable}
    (hx : x ∈ l) (hlt : g x < f x) (hle : ∀ v ∈ l, g v ≤ f v) :
    (l.map g).sum < (l.map f).sum := by
  induction l with
  | nil => cases hx
  | cons b t ih =>
    simp only [List.map_cons, List.sum_cons]
    rcases List.mem_cons.mp hx with h | h
    · exact Nat.add_lt_add_of_lt_of_le (h ▸ hlt)
        (sum_map_le (fun v hv => hle v (List.mem_cons_of_mem b hv)))
    · exact Nat.add_lt_add_of_le_of_lt (hle b (List.mem_cons_self b t))
        (ih h (fun v hv => hle v (List.mem_cons_of_mem b hv)))

theorem domSize_revise_le (c : Crossword) (x y : Variable) (d : Domains) :
    domSize c ((revise c x y d).2) ≤ domSize c d := by
  unfold domSize
  refine sum_map_le (fun v _ => ?_)
  by_cases hvx : v = x
  · rw [hvx]
    cases hc : (revise c x y d).1 with
    | false => rw [revise_snd_of_fst_false hc]
    | true => exact Nat.le_of_lt (revise_shrink hc)
  · rw [revise_snd_ne hvx]

theorem domSize_revise_lt {c : Crossword} {x y : Variable} {d : Domains}
    (hx : x ∈ c.vars) (h : (revise c x y d).1 = true) :
    domSize c ((revise c x y d).2) < domSize c d := by
  unfold domSize
  refine sum_map_lt hx (revise_shrink h) (fun v _ => ?_)
  by_cases hvx : v = x
  · rw [hvx]
    exact Nat.le_of_lt (revise_shrink h)
  · rw [revise_snd_ne hvx]

theorem domSize_revise_eq_of_not_mem {c : Crossword} {x y : Variable} {d : Domains}
    (hx : x ∉ c.vars) : domSize c ((revise c x y d).2) = domSize c d := by
  unfold domSize
  refine congrArg List.sum (List.map_congr_left (fun v hv => ?_))
  have hvx : v ≠ x := fun h => hx (h ▸ hv)
  rw [revise_snd_ne hvx]

theorem badCount_cons (c : Crossword) (p : Variable × Variable)
    (arcs : List (Variable × Variable)) :
    badCount c (p :: arcs) =
      (if p.1 ∈ c.vars then 0 else 1) + badCount c arcs := by
  unfold badCount
  rw [List.filter_cons]
  by_cases hb : p.1 ∈ c.vars <;> simp [hb, Nat.add_comm]

theorem badCount_append (c : Crossword) (l₁ l₂ : List (Variable × Variable)) :
    badCount c (l₁ ++ l₂) = badCount c l₁ + badCount c l₂ := by
  unfold badCount
  simp [List.filter_append]

theorem badCount_neighbors_arcs (c : Crossword) (x : Variable) (q : Variable → Bool) :
    badCount c (((neighbors c x).filter q).map (fun z => (z, x))) = 0 := by
  unfold badCount
  rw [List.length_eq_zero, List.filter_eq_nil_iff]
  intro p hp
  rcases List.mem_map.mp hp with ⟨z, hz, hpz⟩
  have hzvar : z ∈ c.vars :=
    (List.mem_filter.mp ((List.mem_filter.mp hz).1)).1
  subst hpz
  simp [hzvar]

theorem neighbors_arcs_length_le (c : Crossword) (x : Variable) (q : Variable → Bool) :
    (((neighbors c x).filter q).map (fun z => (z, x))).length ≤ c.vars.length := by
  rw [List.length_map]
  exact Nat.le_trans (List.length_filter_le _ _)
    (Nat.le_trans (List.length_filter_le _ _) (Nat.le_refl _))

/-- Worklist loop of method `ac3`: pop the head arc, `revise` it, fail when
the revised domain is empty, otherwise re-enqueue the inward arcs of the
revised slot's other neighbors. -/
def ac3go (c : Crossword) (arcs : List (Variable × Variable)) (d : Domains) :
    Bool × Domains :=
  match arcs with
  | [] => (true, d)
  | (x, y) :: rest =>
    let r := revise c x y d
    if hr : r.1 then
      if (r.2 x).length = 0 then (false, r.2)
      else ac3go c
        (rest ++ ((neighbors c x).filter (fun z => !(z == y))).map (fun z => (z, x)))
        r.2
    else ac3go c rest r.2
termination_by ac3Measure c arcs d
decreasing_by
  · unfold ac3Measure
    have happ := badCount_neighbors_arcs c x (fun z => !(z == y))
    have hlen := neighbors_arcs_length_le c x (fun z => !(z == y))
    rw [badCount_append, happ, List.length_append]
    rw [badCount_cons]
    simp only [List.length_cons]
    by_cases hx : x ∈ c.vars
    · have hd : domSize c (revise c x y d).2 < domSize c d := domSize_revise_lt hx hr
      rw [if_pos hx]
      have hmul : (domSize c (revise c x y d).2 + badCount c rest) * (c.vars.length + 1)
          + (c.vars.length + 1)
          ≤ (domSize c d + (0 + badCount c rest)) * (c.vars.length + 1) := by
        have hle : domSize c (revise c x y d).2 + badCount c rest + 1
            ≤ domSize c d + (0 + badCount c rest) := by omega
        calc (domSize c (revise c x y d).2 + badCount c rest) * (c.vars.length + 1)
              + (c.vars.length + 1)
            = (domSize c (revise c x y d).2 + badCount c rest + 1) * (c.vars.length + 1) := by
              rw [Nat.succ_mul]
          _ ≤ (domSize c d + (0 + badCount c rest)) * (c.vars.length + 1) :=
              Nat.mul_le_mul_right _ hle
      linarith [hmul, hlen]
    · have hd : domSize c (revise c x y d).2 = domSize c d :=
        domSize_revise_eq_of_not_mem hx
      rw [if_neg hx]
      have hmul : (domSize c (revise c x y d).2 + badCount c rest) * (c.vars.length + 1)
          + (c.vars.length + 1)
          ≤ (domSize c d + (1 + badCount c rest)) * (c.vars.length + 1) := by
        have hle : domSize c (revise c x y d).2 + badCount c rest + 1
            ≤ domSize c d + (1 + badCount c rest) := by omega
        calc (domSize c (revise c x y d).2 + badCount c rest) * (c.vars.length + 1)
              + (c.vars.length + 1)
            = (domSize c (revise c x y d).2 + badCount c rest + 1) * (c.vars.length + 1) := by
              rw [Nat.succ_mul]
          _ ≤ (domSize c d + (1 + badCount c rest)) * (c.vars.length + 1) :=
              Nat.mul_le_mul_right _ hle
      linarith [hmul, hlen]
  · unfold ac3Measure
    have h2 : (revise c x y d).2 = d := revise_snd_of_fst_false (by simpa using hr)
    rw [h2, badCount_cons]
    simp only [List.length_cons]
    have hmul : (domSize c d + badCount c rest) * (c.vars.length + 1)
        ≤ (domSize c d + ((if (x, y).1 ∈ c.vars then 0 else 1) + badCount c rest))
            * (c.vars.length + 1) := by
      refine Nat.mul_le_mul_right _ ?_
      by_cases hb : (x, y).1 ∈ c.vars <;> simp [hb]
    linarith [hmul]

/-- Method `ac3(arcs = None)`: when no initial worklist is given, seed it
with `itertools.combinations` of the slot list. -/
def combinations2 {α : Type} : List α → List (α × α)
  | [] => []
  | x :: xs => xs.map (fun y => (x, y)) ++ combinations2 xs

/-- Method `ac3`: run the worklist loop from the given arcs, or from the
default seeding when called with `none` (Python `arcs=None`). -/
def ac3 (c : Crossword) (arcs : Option (List (Variable × Variable))) (d : Domains) :
    Bool × Domains :=
  ac3go c (arcs.getD (combinations2 c.vars)) d

/-- Method `assignment_complete`: every slot of the crossword has a value. -/
def assignment_complete (c : Crossword) (a : Assignment) : Bool :=
  c.vars.all (fun v => hasKey a v)

/-- First loop of method `consistent`: the word-length check and the
`seen_words` uniqueness set. -/
def consistent_seen : Assignment → List Word → Bool
  | [], _ => true
  | (v, w) :: rest, seen =>
    if !(w.length == v.length) then false
    else if seen.contains w then false
    else consistent_seen rest (w :: seen)

/-- Second loop of method `consistent`: every assigned slot agrees with
every assigned neighbor at the recorded overlap offsets (entries with an
absent overlap are skipped, as in the source). -/
def consistent_overlaps (c : Crossword) (a : Assignment) :
    List (Variable × Word) → Bool
  | [] => true
  | (v, w) :: rest =>
    if (neighbors c v).all (fun nb =>
        if hasKey a nb then
          match c.overlaps v nb with
          | none => true
          | some ij => charAt w ij.1 == charAt (lookupA a nb) ij.2
        else true)
    then consistent_overlaps c a rest
    else false

/-- Method `consistent(assignment)`. -/
def consistent (c : Crossword) (a : Assignment) : Bool :=
  consistent_seen a [] && consistent_overlaps c a a

/-- Inner test of `order_domain_values`: whether choosing `w` for `var`
eliminates the candidate `nw` of the neighbor `nb` (identical word, or a
conflict at the overlap offsets; the identical case is counted once and
skips the offset test, as in the source). -/
def elim1 (c : Crossword) (var nb : Variable) (w nw : Word) : Bool :=
  if w == nw then true
  else !(charAt w (((c.overlaps var nb).getD (0, 0)).1)
        == charAt nw (((c.overlaps var nb).getD (0, 0)).2))

/-- Elimination count of one candidate word of `var` over the unassigned
neighbors (`eliminations_per_word` of `order_domain_values`). -/
def elimCount (c : Crossword) (d : Domains) (a : Assignment) (var : Variable)
    (w : Word) : Nat :=
  (((neighbors c var).filter (fun nb => !(hasKey a nb))).map
    (fun nb => ((d nb).filter (fun nw => elim1 c var nb w nw)).length)).sum

/-- Method `order_domain_values`: the domain of `var` sorted stably in
ascending order of elimination count (Python `sorted` with a key). -/
def order_domain_values (c : Crossword) (d : Domains) (var : Variable)
    (a : Assignment) : List Word :=
  (d var).mergeSort
    (fun w1 w2 => decide (elimCount c d a var w1 ≤ elimCount c d a var w2))

/-- Unassigned slots, in slot-list order (`remaining_vars` of
`select_unassigned_variable`). -/
def remaining_vars (c : Crossword) (a : Assignment) : List Variable :=
  c.vars.filter (fun v => !(hasKey a v))

/-- Stand-in slot for Python list indexing that cannot be out of range in
any reachable state. -/
def dummyVar : Variable := ⟨0, 0, Direction.across, 0⟩

/-- MRV loop of `select_unassigned_variable`: tracks the minimal domain
size seen and the indices attaining it (the seed index 0 is revisited by
the loop exactly as in the source). -/
def mrvLoop (d : Domains) : List (Nat × Variable) → Nat → List Nat → Nat × List Nat
  | [], m, idxs => (m, idxs)
  | (k, var) :: rest, m, idxs =>
    if (d var).length < m then mrvLoop d rest (d var).length [k]
    else if (d var).length = m then mrvLoop d rest m (idxs ++ [k])
    else mrvLoop d rest m idxs

/-- Degree tie-break loop of `select_unassigned_variable`, transcribed
exactly: the running value `m` is an index into the list, yet it is the
index that each neighbor count `num` is compared against. -/
def degLoop : List (Nat × Nat) → Nat → Nat
  | [], m => m
  | (k, num) :: rest, m => if num > m then degLoop rest k else degLoop rest m

/-- Method `select_unassigned_variable`. -/
def select_unassigned_variable (c : Crossword) (d : Domains) (a : Assignment) :
    Variable :=
  let rv := remaining_vars c a
  let st := mrvLoop d rv.enum ((d (rv.getD 0 dummyVar)).length) [0]
  if st.2.length = 1 then rv.getD (st.2.getD 0 0) dummyVar
  else
    let nums := st.2.map (fun k => (neighbors c (rv.getD k dummyVar)).length)
    rv.getD (st.2.getD (degLoop nums.enum 0) 0) dummyVar

theorem getD_mem_of_lt {α : Type} {l : List α} {k : Nat} (h : k < l.length)
    (d0 : α) : l.getD k d0 ∈ l := by
  rw [List.getD_eq_getElem?_getD, List.getElem?_eq_getElem h]
  exact List.getElem_mem h

theorem mem_enumFrom_fst_lt {α : Type} :
    ∀ {l : List α} {n : Nat} {p : Nat × α}, p ∈ l.enumFrom n → p.1 < n + l.length
  | [], _, _, h => by cases h
  | b :: t, n, p, h => by
    rcases List.mem_cons.mp h with h | h
    · subst h
      simp only [List.length_cons]
      omega
    · have := mem_enumFrom_fst_lt h
      simp only [List.length_cons]
      omega

theorem mem_enum_fst_lt {α : Type} {l : List α} {p : Nat × α}
    (h : p ∈ l.enum) : p.1 < l.length := by
  have := @mem_enumFrom_fst_lt α l 0 p h
  omega

theorem mrvLoop_idxs_ne_nil {d : Domains} :
    ∀ {pairs : List (Nat × Variable)} {m : Nat} {idxs : List Nat},
      idxs ≠ [] → (mrvLoop d pairs m idxs).2 ≠ []
  | [], _, _, h => h
  | (k, var) :: rest, m, idxs, h => by
    unfold mrvLoop
    by_cases h1 : (d var).length < m
    · simp only [h1, if_true]
      exact mrvLoop_idxs_ne_nil (by simp)
    · simp only [h1, if_false]
      by_cases h2 : (d var).length = m
      · simp only [h2, if_true]
        exact mrvLoop_idxs_ne_nil (by simp [h])
      · simp only [h2, if_false]
        exact mrvLoop_idxs_ne_nil h

theorem mrvLoop_idxs_lt {d : Domains} {n : Nat} :
    ∀ {pairs : List (Nat × Variable)} {m : Nat} {idxs : List Nat},
      (∀ k ∈ idxs, k < n) → (∀ p ∈ pairs, p.1 < n) →
      ∀ k ∈ (mrvLoop d pairs m idxs).2, k < n
  | [], _, _, hi, _ => hi
  | (k0, var) :: rest, m, idxs, hi, hp => by
    unfold mrvLoop
    have hk0 : k0 < n := hp (k0, var) (List.mem_cons_self _ _)
    have hrest : ∀ p ∈ rest, p.1 < n := fun p hps => hp p (List.mem_cons_of_mem _ hps)
    by_cases h1 : (d var).length < m
    · simp only [h1, if_true]
      exact mrvLoop_idxs_lt (by simpa using hk0) hrest
    · simp only [h1, if_false]
      by_cases h2 : (d var).length = m
      · simp only [h2, if_true]
        refine mrvLoop_idxs_lt (fun k hk => ?_) hrest
        rcases List.mem_append.mp hk with h | h
        · exact hi k h
        · simpa using (by simpa using h : k = k0) ▸ hk0
      · simp only [h2, if_false]
        exact mrvLoop_idxs_lt hi hrest

theorem degLoop_lt {n : Nat} :
    ∀ {pairs : List (Nat × Nat)} {m : Nat},
      (∀ p ∈ pairs, p.1 < n) → m < n → degLoop pairs m < n
  | [], _, _, hm => hm
  | (k, num) :: rest, m, hp, hm => by
    unfold degLoop
    have hrest : ∀ p ∈ rest, p.1 < n := fun p hps => hp p (List.mem_cons_of_mem _ hps)
    by_cases h1 : num > m
    · simp only [h1, if_true]
      exact degLoop_lt hrest (hp (k, num) (List.mem_cons_self _ _))
    · simp only [h1, if_false]
      exact degLoop_lt hrest hm

theorem select_unassigned_variable_mem (c : Crossword) (d : Domains)
    (a : Assignment) (h : remaining_vars c a ≠ []) :
    select_unassigned_variable c d a ∈ remaining_vars c a := by
  unfold select_unassigned_variable
  have hlen : 0 < (remaining_vars c a).length := List.length_pos.mpr h
  have hidxs : ∀ k ∈ (mrvLoop d (remaining_vars c a).enum
      ((d ((remaining_vars c a).getD 0 dummyVar)).length) [0]).2,
      k < (remaining_vars c a).length := by
    refine mrvLoop_idxs_lt (fun k hk => ?_) (fun p hp => mem_enum_fst_lt hp)
    simpa using (by simpa using hk : k = 0) ▸ hlen
  have hne : (mrvLoop d (remaining_vars c a).enum
      ((d ((remaining_vars c a).getD 0 dummyVar)).length) [0]).2 ≠ [] :=
    mrvLoop_idxs_ne_nil (by simp)
  set idxs := (mrvLoop d (remaining_vars c a).enum
      ((d ((remaining_vars c a).getD 0 dummyVar)).length) [0]).2 with hidxdef
  have hidxs_pos : 0 < idxs.length := List.length_pos.mpr hne
  by_cases h1 : idxs.length = 1
  · simp only [h1, if_true]
    refine getD_mem_of_lt ?_ _
    exact hidxs _ (getD_mem_of_lt hidxs_pos 0)
  · simp only [h1, if_false]
    refine getD_mem_of_lt ?_ _
    refine hidxs _ (getD_mem_of_lt ?_ 0)
    have hdeg : degLoop (idxs.map (fun k =>
        (neighbors c ((remaining_vars c a).getD k dummyVar)).length)).enum 0
        < idxs.length := by
      refine degLoop_lt (fun p hp => ?_) hidxs_pos
      have := mem_enum_fst_lt hp
      simpa using this
    exact hdeg

theorem remaining_ne_of_not_complete {c : Crossword} {a : Assignment}
    (h : ¬ assignment_complete c a = true) : remaining_vars c a ≠ [] := by
  intro hnil
  apply h
  unfold assignment_complete
  rw [List.all_eq_true]
  intro v hv
  by_contra hkey
  have hvmem : v ∈ remaining_vars c a := by
    unfold remaining_vars
    rw [List.mem_filter]
    exact ⟨hv, by simpa using hkey⟩
  rw [hnil] at hvmem
  cases hvmem

theorem remaining_append_lt {c : Crossword} {a : Assignment} {var : Variable}
    (hvar : var ∈ remaining_vars c a) (w : Word) :
    (remaining_vars c (a ++ [(var, w)])).length < (remaining_vars c a).length := by
  have heq : remaining_vars c (a ++ [(var, w)])
      = (remaining_vars c a).filter (fun v => !(var == v)) := by
    unfold remaining_vars
    rw [List.filter_filter]
    refine List.filter_congr (fun v _ => ?_)
    unfold hasKey
    simp only [List.any_append, List.any_cons, List.any_nil, Bool.or_false]
    cases h1 : a.any (fun p => p.1 == v) <;> cases h2 : (var == v) <;> simp
  rw [heq]
  refine length_filter_lt_of_mem hvar ?_
  simp

/- Method `backtrack`, split into the recursive entry and the word loop.
Python mutates `assignment` in place and undoes the entry on every exit
path, so each trial is value-equal to searching from `a ++ [(var, w)]`.
The word loop is only ever entered with the slot chosen by
`select_unassigned_variable`, which is unassigned; the membership proof
carries that reachability fact. -/
mutual

/-- Method `backtrack(assignment)`. -/
def backtrack (c : Crossword) (d : Domains) (a : Assignment) : Option Assignment :=
  if h : assignment_complete c a = true then some a
  else
    try_words c d a (select_unassigned_variable c d a)
      (order_domain_values c d (select_unassigned_variable c d a) a)
      (select_unassigned_variable_mem c d a (remaining_ne_of_not_complete h))
termination_by ((remaining_vars c a).length, 1, 0)
decreasing_by
  exact Prod.Lex.right _ (Prod.Lex.left _ _ (by omega))

/-- Word loop of `backtrack`: try the ordered candidate words in turn. -/
def try_words (c : Crossword) (d : Domains) (a : Assignment) (var : Variable)
    (ws : List Word) (hvar : var ∈ remaining_vars c a) : Option Assignment :=
  match ws with
  | [] => none
  | w :: rest =>
    if consistent c (a ++ [(var, w)]) then
      match backtrack c d (a ++ [(var, w)]) with
      | some r => some r
      | none => try_words c d a var rest hvar
    else try_words c d a var rest hvar
termination_by ((remaining_vars c a).length, 0, ws.length + 1)
decreasing_by
  all_goals first
    | exact Prod.Lex.left _ _ (remaining_append_lt hvar w)
    | exact Prod.Lex.right _ (Prod.Lex.left _ _ (by omega))
    | exact Prod.Lex.right _ (Prod.Lex.right _ (by
        simp only [List.length_cons]; omega))

end

/-- Method `solve`: node consistency, then the full `ac3` pass whose
boolean result is discarded, then backtracking search from the empty
assignment over whatever Domain Store the propagation left behind. -/
def solve (c : Crossword) : Option Assignment :=
  backtrack c (ac3 c none (enforce_node_consistency (initDomains c))).2 []

/- Instrumented mirror of `backtrack` counting how many times the method
is invoked, used to observe whether `solve` enters backtracking search. -/
mutual

/-- Number of `backtrack` invocations performed by a search from `a`. -/
def backtrack_calls (c : Crossword) (d : Domains) (a : Assignment) : Nat :=
  if h : assignment_complete c a = true then 1
  else
    1 + try_words_calls c d a (select_unassigned_variable c d a)
      (order_domain_values c d (select_unassigned_variable c d a) a)
      (select_unassigned_variable_mem c d a (remaining_ne_of_not_complete h))
termination_by ((remaining_vars c a).length, 1, 0)
decreasing_by
  exact Prod.Lex.right _ (Prod.Lex.left _ _ (by omega))

/-- Number of `backtrack` invocations performed by the word loop. -/
def try_words_calls (c : Crossword) (d : Domains) (a : Assignment) (var : Variable)
    (ws : List Word) (hvar : var ∈ remaining_vars c a) : Nat :=
  match ws with
  | [] => 0
  | w :: rest =>
    if consistent c (a ++ [(var, w)]) then
      match backtrack c d (a ++ [(var, w)]) with
      | some _ => backtrack_calls c d (a ++ [(var, w)])
      | none => backtrack_calls c d (a ++ [(var, w)])
          + try_words_calls c d a var rest hvar
    else try_words_calls c d a var rest hvar
termination_by ((remaining_vars c a).length, 0, ws.length + 1)
decreasing_by
  all_goals first
    | exact Prod.Lex.left _ _ (remaining_append_lt hvar w)
    | exact Prod.Lex.right _ (Prod.Lex.left _ _ (by omega))
    | exact Prod.Lex.right _ (Prod.Lex.right _ (by
        simp only [List.length_cons]; omega))

end

/-- Number of `backtrack` invocations performed by `solve`. -/
def solve_backtrack_calls (c : Crossword) : Nat :=
  backtrack_calls c (ac3 c none (enforce_node_consistency (initDomains c))).2 []

/- State-threading rendering of the search: the Domain Store owned by the
solver object is passed into every call and returned from it, exactly as
the mutable `self.domains` flows through Python's call tree.  The helper
methods `assignment_complete`, `select_unassigned_variable`,
`order_domain_values` and `consistent` contain no assignment to
`self.domains`, so they are pure readers of the threaded state. -/
mutual

/-- State-threading mirror of `backtrack`. -/
def backtrackS (c : Crossword) (d : Domains) (a : Assignment) :
    Option Assignment × Domains :=
  if h : assignment_complete c a = true then (some a, d)
  else
    try_wordsS c d a (select_unassigned_variable c d a)
      (order_domain_values c d (select_unassigned_variable c d a) a)
      (select_unassigned_variable_mem c d a (remaining_ne_of_not_complete h))
termination_by ((remaining_vars c a).length, 1, 0)
decreasing_by
  exact Prod.Lex.right _ (Prod.Lex.left _ _ (by omega))

/-- State-threading mirror of the word loop of `backtrack`. -/
def try_wordsS (c : Crossword) (d : Domains) (a : Assignment) (var : Variable)
    (ws : List Word) (hvar : var ∈ remaining_vars c a) :
    Option Assignment × Domains :=
  match ws with
  | [] => (none, d)
  | w :: rest =>
    if consistent c (a ++ [(var, w)]) then
      match backtrackS c d (a ++ [(var, w)]) with
      | (some r, d2) => (some r, d2)
      | (none, d2) => try_wordsS c d2 a var rest hvar
    else try_wordsS c d a var rest hvar
termination_by ((remaining_vars c a).length, 0, ws.length + 1)
decreasing_by
  all_goals first
    | exact Prod.Lex.left _ _ (remaining_append_lt hvar w)
    | exact Prod.Lex.right _ (Prod.Lex.left _ _ (by omega))
    | exact Prod.Lex.right _ (Prod.Lex.right _ (by
        simp only [List.length_cons]; omega))

end

/-- Keys of an assignment, in insertion order. -/
def keysOf (a : Assignment) : List Variable := a.map Prod.fst

/-- Semantic consistency of an assignment, in the words of the
specification: every assigned word has its slot's length, the assigned
words are pairwise distinct, and every pair of crossing assigned slots
agrees at the overlap offsets. -/
def ConsistentAssign (c : Crossword) (a : Assignment) : Prop :=
  (∀ p ∈ a, (p.2 : Word).length = (p.1 : Variable).length) ∧
  (a.map Prod.snd).Nodup ∧
  (∀ p ∈ a, ∀ q ∈ a, ∀ ij : Nat × Nat,
    c.overlaps p.1 q.1 = some ij → charAt p.2 ij.1 = charAt q.2 ij.2)

theorem hasKey_iff {a : Assignment} {v : Variable} :
    hasKey a v = true ↔ ∃ w, (v, w) ∈ a := by
  unfold hasKey
  rw [List.any_eq_true]
  constructor
  · rintro ⟨p, hp, hbeq⟩
    exact ⟨p.2, by rwa [show p = (v, p.2) from by
      rw [← beq_iff_eq.mp hbeq]] at hp⟩
  · rintro ⟨w, hw⟩
    exact ⟨(v, w), hw, by simp⟩

theorem hasKey_eq_false_iff {a : Assignment} {v : Variable} :
    hasKey a v = false ↔ ∀ w, (v, w) ∉ a := by
  constructor
  · intro h w hw
    have := hasKey_iff.mpr ⟨w, hw⟩
    rw [h] at this
    cases this
  · intro h
    cases hk : hasKey a v
    · rfl
    · rcases hasKey_iff.mp hk with ⟨w, hw⟩
      exact absurd hw (h w)

theorem mem_keysOf_iff {a : Assignment} {v : Variable} :
    v ∈ keysOf a ↔ ∃ w, (v, w) ∈ a := by
  unfold keysOf
  rw [List.mem_map]
  constructor
  · rintro ⟨p, hp, hfst⟩
    exact ⟨p.2, by rwa [show p = (v, p.2) from by rw [← hfst]] at hp⟩
  · rintro ⟨w, hw⟩
    exact ⟨(v, w), hw, rfl⟩

theorem hasKey_eq_true_of_mem {a : Assignment} {v : Variable} {w : Word}
    (h : (v, w) ∈ a) : hasKey a v = true :=
  hasKey_iff.mpr ⟨w, h⟩

theorem lookupA_eq {a : Assignment} {v : Variable} {w : Word}
    (hnd : (keysOf a).Nodup) (h : (v, w) ∈ a) : lookupA a v = w := by
  induction a with
  | nil => cases h
  | cons p rest ih =>
    obtain ⟨u, x⟩ := p
    unfold lookupA
    rcases List.mem_cons.mp h with h1 | h1
    · rw [← h1]
      simp [List.find?_cons_of_pos]
    · have hne : u ≠ v := by
        intro he
        subst he
        have : u ∈ keysOf rest := mem_keysOf_iff.mpr ⟨w, h1⟩
        exact (List.nodup_cons.mp hnd).1 this
      rw [List.find?_cons_of_neg _ (by simpa using hne)]
      exact ih (List.nodup_cons.mp hnd).2 h1

theorem consistent_seen_iff :
    ∀ (a : Assignment) (seen : List Word),
      consistent_seen a seen = true ↔
        ((∀ p ∈ a, (p.2 : Word).length = (p.1 : Variable).length) ∧
         (a.map Prod.snd).Nodup ∧ ∀ p ∈ a, p.2 ∉ seen)
  | [], seen => by simp [consistent_seen]
  | (v, w) :: rest, seen => by
    unfold consistent_seen
    by_cases hlen : w.length = v.length
    · rw [if_neg (by simpa using hlen)]
      by_cases hseen : seen.contains w
      · rw [if_pos hseen]
        simp only [Bool.false_eq_true, false_iff]
        rintro ⟨-, -, hno⟩
        exact absurd (by simpa using hseen)
          (hno (v, w) (List.mem_cons_self _ _))
      · rw [if_neg hseen]
        rw [consistent_seen_iff rest (w :: seen)]
        constructor
        · rintro ⟨h1, h2, h3⟩
          refine ⟨?_, ?_, ?_⟩
          · intro p hp
            rcases List.mem_cons.mp hp with h | h
            · rw [h]
              exact hlen
            · exact h1 p h
          · rw [List.map_cons, List.nodup_cons]
            refine ⟨?_, h2⟩
            intro hwmem
            rcases List.mem_map.mp hwmem with ⟨q, hq, hqe⟩
            refine (h3 q hq) ?_
            rw [hqe]
            exact List.mem_cons_self w seen
          · intro p hp
            rcases List.mem_cons.mp hp with h | h
            · rw [h]
              simpa using hseen
            · exact fun hmem => h3 p h (List.mem_cons_of_mem _ hmem)
        · rintro ⟨h1, h2, h3⟩
          refine ⟨fun p hp => h1 p (List.mem_cons_of_mem _ hp), ?_, ?_⟩
          · exact (List.nodup_cons.mp (by simpa using h2)).2
          · intro p hp
            rw [List.mem_cons]
            rintro (he | hmem)
            · have hw : w ∉ rest.map Prod.snd :=
                (List.nodup_cons.mp (by simpa using h2)).1
              exact hw (he ▸ List.mem_map.mpr ⟨p, hp, rfl⟩)
            · exact h3 p (List.mem_cons_of_mem _ hp) hmem
    · rw [if_pos (by simpa using hlen)]
      simp only [Bool.false_eq_true, false_iff]
      rintro ⟨h1, -, -⟩
      exact hlen (h1 (v, w) (List.mem_cons_self _ _))

theorem overlap_check_iff (c : Crossword) (a : Assignment) (v : Variable) (w : Word) :
    ((neighbors c v).all (fun nb =>
        if hasKey a nb then
          match c.overlaps v nb with
          | none => true
          | some ij => charAt w ij.1 == charAt (lookupA a nb) ij.2
        else true) = true) ↔
      ∀ nb ∈ neighbors c v, hasKey a nb = true →
        ∀ ij : Nat × Nat, c.overlaps v nb = some ij →
          charAt w ij.1 = charAt (lookupA a nb) ij.2 := by
  rw [List.all_eq_true]
  constructor
  · intro h nb hnb hk ij hov
    have hcheck := h nb hnb
    rw [if_pos hk, hov] at hcheck
    exact beq_iff_eq.mp hcheck
  · intro h nb hnb
    cases hk : hasKey a nb with
    | false => rw [if_neg (by simp)]
    | true =>
      rw [if_pos rfl]
      cases hov : c.overlaps v nb with
      | none => rfl
      | some ij => exact beq_iff_eq.mpr (h nb hnb hk ij hov)

theorem consistent_overlaps_iff (c : Crossword) (a : Assignment) :
    ∀ rest : List (Variable × Word),
      consistent_overlaps c a rest = true ↔
        ∀ p ∈ rest, ∀ nb ∈ neighbors c (p.1 : Variable), hasKey a nb = true →
          ∀ ij : Nat × Nat, c.overlaps p.1 nb = some ij →
            charAt p.2 ij.1 = charAt (lookupA a nb) ij.2
  | [] => by simp [consistent_overlaps]
  | (v, w) :: rest => by
    unfold consistent_overlaps
    by_cases hc : (neighbors c v).all (fun nb =>
        if hasKey a nb then
          match c.overlaps v nb with
          | none => true
          | some ij => charAt w ij.1 == charAt (lookupA a nb) ij.2
        else true) = true
    · rw [if_pos hc, consistent_overlaps_iff c a rest]
      constructor
      · intro h p hp
        rcases List.mem_cons.mp hp with h1 | h1
        · rw [h1]
          exact (overlap_check_iff c a v w).mp hc
        · exact h p h1
      · intro h p hp
        exact h p (List.mem_cons_of_mem _ hp)
    · rw [if_neg hc]
      simp only [Bool.false_eq_true, false_iff]
      intro h
      exact hc ((overlap_check_iff c a v w).mpr (h (v, w) (List.mem_cons_self _ _)))

theorem consistent_iff {c : Crossword} {a : Assignment}
    (hnd : (keysOf a).Nodup) (hsub : ∀ v ∈ keysOf a, v ∈ c.vars)
    (hirr : ∀ v ∈ c.vars, c.overlaps v v = none) :
    consistent c a = true ↔ ConsistentAssign c a := by
  unfold consistent ConsistentAssign
  rw [Bool.and_eq_true, consistent_seen_iff a [], consistent_overlaps_iff c a a]
  constructor
  · rintro ⟨⟨h1, h2, -⟩, hov⟩
    refine ⟨h1, h2, ?_⟩
    intro p hp q hq ij hpq
    have hq1vars : q.1 ∈ c.vars := hsub q.1 (List.mem_map.mpr ⟨q, hq, rfl⟩)
    have hne : q.1 ≠ p.1 := by
      intro he
      have : c.overlaps p.1 p.1 = some ij := by rw [← he] at hpq ⊢; exact hpq
      rw [hirr p.1 (hsub p.1 (List.mem_map.mpr ⟨p, hp, rfl⟩))] at this
      cases this
    have hnb : q.1 ∈ neighbors c p.1 := by
      unfold neighbors
      rw [List.mem_filter]
      refine ⟨hq1vars, ?_⟩
      simp [hne, hpq]
    have hkey : hasKey a q.1 = true := hasKey_iff.mpr ⟨q.2, by simpa using hq⟩
    have := hov p hp q.1 hnb hkey ij hpq
    rwa [lookupA_eq hnd (by simpa using hq)] at this
  · rintro ⟨h1, h2, hov⟩
    refine ⟨⟨h1, h2, by simp⟩, ?_⟩
    intro p hp nb hnb hkey ij hpnb
    rcases hasKey_iff.mp hkey with ⟨wnb, hwnb⟩
    have := hov p hp (nb, wnb) hwnb ij hpnb
    rwa [lookupA_eq hnd hwnb]

theorem mem_remaining_iff {c : Crossword} {a : Assignment} {v : Variable} :
    v ∈ remaining_vars c a ↔ v ∈ c.vars ∧ hasKey a v = false := by
  unfold remaining_vars
  rw [List.mem_filter]
  simp

theorem keysOf_append (a : Assignment) (p : Variable × Word) :
    keysOf (a ++ [p]) = keysOf a ++ [p.1] := by
  simp [keysOf]

theorem odv_perm (c : Crossword) (d : Domains) (var : Variable) (a : Assignment) :
    (order_domain_values c d var a).Perm (d var) :=
  List.mergeSort_perm _ _

theorem backtrack_sound_aux :
    ∀ (n : Nat) (c : Crossword) (d : Domains) (a : Assignment),
      (remaining_vars c a).length = n →
      (keysOf a).Nodup → (∀ v ∈ keysOf a, v ∈ c.vars) →
      consistent c a = true →
      ∀ r, backtrack c d a = some r →
        assignment_complete c r = true ∧ consistent c r = true ∧
        (keysOf r).Nodup ∧ (∀ v ∈ keysOf r, v ∈ c.vars) ∧
        (∀ p ∈ r, p ∈ a ∨ p.2 ∈ d p.1) := by
  intro n
  induction n using Nat.strong_induction_on with
  | _ n ih =>
    intro c d a hn hnd hsub hcons r hbt
    unfold backtrack at hbt
    split at hbt
    · rename_i hcomp
      cases hbt
      exact ⟨hcomp, hcons, hnd, hsub, fun p hp => Or.inl hp⟩
    · rename_i hcomp
      -- the selected slot is unassigned and a real slot
      have hvarmem := select_unassigned_variable_mem c d a
        (remaining_ne_of_not_complete hcomp)
      set var := select_unassigned_variable c d a with hvardef
      have hvarvars : var ∈ c.vars := (mem_remaining_iff.mp hvarmem).1
      have hvarkey : hasKey a var = false := (mem_remaining_iff.mp hvarmem).2
      -- generalize the candidate word list
      have hws : ∀ w ∈ order_domain_values c d var a, w ∈ d var :=
        fun w hw => ((odv_perm c d var a).mem_iff).mp hw
      revert hbt hws
      generalize order_domain_values c d var a = ws
      induction ws with
      | nil =>
        intro hbt hws
        unfold try_words at hbt
        cases hbt
      | cons w rest ihws =>
        intro hbt hws
        unfold try_words at hbt
        split at hbt
        · rename_i hcons2
          -- consistent branch: match on the recursive search
          cases hb2 : backtrack c d (a ++ [(var, w)]) with
          | none =>
            rw [hb2] at hbt
            exact ihws hbt (fun w hw => hws w (List.mem_cons_of_mem _ hw))
          | some r0 =>
            rw [hb2] at hbt
            cases hbt
            have hlt : (remaining_vars c (a ++ [(var, w)])).length < n :=
              hn ▸ remaining_append_lt hvarmem w
            have hnd2 : (keysOf (a ++ [(var, w)])).Nodup := by
              rw [keysOf_append]
              rw [List.nodup_append]
              refine ⟨hnd, List.nodup_singleton _, ?_⟩
              intro v hv hv2
              rcases mem_keysOf_iff.mp hv with ⟨w2, hw2⟩
              have : hasKey a v = true := hasKey_iff.mpr ⟨w2, hw2⟩
              rw [show v = var by simpa using hv2] at this
              rw [this] at hvarkey
              cases hvarkey
            have hsub2 : ∀ v ∈ keysOf (a ++ [(var, w)]), v ∈ c.vars := by
              rw [keysOf_append]
              intro v hv
              rcases List.mem_append.mp hv with h | h
              · exact hsub v h
              · rw [show v = var by simpa using h]
                exact hvarvars
            have hres := ih _ hlt c d (a ++ [(var, w)]) rfl hnd2 hsub2 hcons2 r hb2
            refine ⟨hres.1, hres.2.1, hres.2.2.1, hres.2.2.2.1, ?_⟩
            intro p hp
            rcases hres.2.2.2.2 p hp with h | h
            · rcases List.mem_append.mp h with h1 | h1
              · exact Or.inl h1
              · right
                rw [show p = (var, w) by simpa using h1]
                exact hws w (List.mem_cons_self _ _)
            · exact Or.inr h
        · exact ihws hbt (fun w hw => hws w (List.mem_cons_of_mem _ hw))

/-- Modelled from the spec: well-formedness of the Grid Model, executable
so concrete instances can be checked by evaluation.  The slot list and the
vocabulary are sets (no duplicates); a slot never overlaps itself; the
Overlap relation is symmetric with swapped offsets; recorded offsets lie
inside the slots' lengths. -/
def crosswordWF (c : Crossword) : Bool :=
  decide c.vars.Nodup &&
  decide c.words.Nodup &&
  c.vars.all (fun v => (c.overlaps v v).isNone) &&
  c.vars.all (fun x => c.vars.all (fun y =>
    c.overlaps y x == (c.overlaps x y).map (fun ij => (ij.2, ij.1)))) &&
  c.vars.all (fun x => c.vars.all (fun y =>
    match c.overlaps x y with
    | none => true
    | some ij => decide (ij.1 < x.length) && decide (ij.2 < y.length)))

theorem wf_nodup_vars {c : Crossword} (h : crosswordWF c = true) : c.vars.Nodup := by
  unfold crosswordWF at h
  simp only [Bool.and_eq_true, decide_eq_true_eq] at h
  exact h.1.1.1.1

theorem wf_nodup_words {c : Crossword} (h : crosswordWF c = true) : c.words.Nodup := by
  unfold crosswordWF at h
  simp only [Bool.and_eq_true, decide_eq_true_eq] at h
  exact h.1.1.1.2

theorem wf_irrefl {c : Crossword} (h : crosswordWF c = true) :
    ∀ v ∈ c.vars, c.overlaps v v = none := by
  unfold crosswordWF at h
  simp only [Bool.and_eq_true, List.all_eq_true] at h
  intro v hv
  have := h.1.1.2 v hv
  rwa [Option.isNone_iff_eq_none] at this

theorem wf_symm {c : Crossword} (h : crosswordWF c = true) :
    ∀ x ∈ c.vars, ∀ y ∈ c.vars, ∀ ij : Nat × Nat,
      c.overlaps x y = some ij → c.overlaps y x = some (ij.2, ij.1) := by
  unfold crosswordWF at h
  simp only [Bool.and_eq_true, List.all_eq_true] at h
  intro x hx y hy ij hov
  have := h.1.2 x hx y hy
  rw [hov] at this
  simpa using beq_iff_eq.mp this

theorem wf_bounds {c : Crossword} (h : crosswordWF c = true) :
    ∀ x ∈ c.vars, ∀ y ∈ c.vars, ∀ ij : Nat × Nat,
      c.overlaps x y = some ij → ij.1 < x.length ∧ ij.2 < y.length := by
  unfold crosswordWF at h
  simp only [Bool.and_eq_true, List.all_eq_true] at h
  intro x hx y hy ij hov
  have := h.2 x hx y hy
  rw [hov] at this
  simpa using this

theorem consistent_nil (c : Crossword) : consistent c [] = true := rfl

/-- Semantic statement that `sol` is a complete consistent assignment whose
words lie in the Domain Store `d`. -/
def SolutionIn (c : Crossword) (d : Domains) (sol : Variable → Word) : Prop :=
  (∀ v ∈ c.vars, sol v ∈ d v) ∧
  (∀ v ∈ c.vars, (sol v).length = v.length) ∧
  (∀ u ∈ c.vars, ∀ v ∈ c.vars, u ≠ v → sol u ≠ sol v) ∧
  (∀ u ∈ c.vars, ∀ v ∈ c.vars, ∀ ij : Nat × Nat, c.overlaps u v = some ij →
     charAt (sol u) ij.1 = charAt (sol v) ij.2)

theorem enforceNC_keeps_sol {c : Crossword} {d : Domains} {sol : Variable → Word}
    (h : SolutionIn c d sol) : SolutionIn c (enforce_node_consistency d) sol := by
  obtain ⟨h1, h2, h3, h4⟩ := h
  refine ⟨?_, h2, h3, h4⟩
  intro v hv
  unfold enforce_node_consistency
  rw [List.mem_filter]
  exact ⟨h1 v hv, by simp [h2 v hv]⟩

theorem revise_keeps_sol {c : Crossword} {x y : Variable} {d : Domains}
    {sol : Variable → Word} (hx : x ∈ c.vars) (hy : y ∈ c.vars)
    (hirr : ∀ v ∈ c.vars, c.overlaps v v = none)
    (h : SolutionIn c d sol) : SolutionIn c ((revise c x y d).2) sol := by
  obtain ⟨h1, h2, h3, h4⟩ := h
  refine ⟨?_, h2, h3, h4⟩
  intro v hv
  by_cases hvx : v = x
  · subst hvx
    cases hov : c.overlaps v y with
    | none =>
      have : (revise c v y d).2 = d := by
        unfold revise
        rw [hov]
      rw [this]
      exact h1 v hv
    | some ij =>
      have hrw : (revise c v y d).2 =
          (if ((d v).filter (fun wx => !(supported (d y) ij wx))).length = 0
            then ((false : Bool), d)
            else (true, updateD d v ((d v).filter (fun wx => supported (d y) ij wx)))).2 := by
        unfold revise
        rw [hov]
      rw [hrw]
      have hvy : v ≠ y := by
        intro he
        rw [he] at hov
        rw [hirr y hy] at hov
        cases hov
      have hsup : supported (d y) ij (sol v) = true := by
        unfold supported
        rw [List.any_eq_true]
        refine ⟨sol y, h1 y hy, ?_⟩
        rw [Bool.and_eq_true]
        constructor
        · exact beq_iff_eq.mpr (h4 v hv y hy ij hov)
        · simpa using h3 v hv y hy hvy
      by_cases hz : ((d v).filter (fun wx => !(supported (d y) ij wx))).length = 0
      · rw [if_pos hz]
        exact h1 v hv
      · rw [if_neg hz]
        show sol v ∈ updateD d v _ v
        unfold updateD
        rw [if_pos rfl, List.mem_filter]
        exact ⟨h1 v hv, hsup⟩
  · rw [revise_snd_ne hvx]
    exact h1 v hv

theorem ac3go_keeps_sol {c : Crossword} {sol : Variable → Word}
    (hirr : ∀ v ∈ c.vars, c.overlaps v v = none) :
    ∀ (arcs : List (Variable × Variable)) (d : Domains),
      (∀ p ∈ arcs, (p.1 : Variable) ∈ c.vars ∧ (p.2 : Variable) ∈ c.vars) →
      SolutionIn c d sol → SolutionIn c ((ac3go c arcs d).2) sol := by
  intro arcs d
  induction arcs, d using ac3go.induct c with
  | case1 d =>
    intro _ h
    simpa [ac3go] using h
  | case2 d x y rest r hr hlen =>
    intro harcs h
    have hxy := harcs (x, y) (List.mem_cons_self _ _)
    unfold ac3go
    rw [dif_pos hr, if_pos hlen]
    exact revise_keeps_sol hxy.1 hxy.2 hirr h
  | case3 d x y rest r hr hlen ih =>
    intro harcs h
    have hxy := harcs (x, y) (List.mem_cons_self _ _)
    unfold ac3go
    rw [dif_pos hr, if_neg hlen]
    refine ih ?_ (revise_keeps_sol hxy.1 hxy.2 hirr h)
    intro p hp
    rcases List.mem_append.mp hp with h1 | h1
    · exact harcs p (List.mem_cons_of_mem _ h1)
    · rcases List.mem_map.mp h1 with ⟨z, hz, hpz⟩
      have hzvars : z ∈ c.vars :=
        (List.mem_filter.mp ((List.mem_filter.mp hz).1)).1
      rw [← hpz]
      exact ⟨hzvars, hxy.1⟩
  | case4 d x y rest r hr ih =>
    intro harcs h
    unfold ac3go
    rw [dif_neg hr]
    refine ih (fun p hp => harcs p (List.mem_cons_of_mem _ hp)) ?_
    rw [revise_snd_of_fst_false (by simpa using hr)]
    exact h

theorem ac3go_subset {c : Crossword} :
    ∀ (arcs : List (Variable × Variable)) (d : Domains) (v : Variable) (w : Word),
      w ∈ (ac3go c arcs d).2 v → w ∈ d v := by
  intro arcs d
  induction arcs, d using ac3go.induct c with
  | case1 d =>
    intro v w h
    simpa [ac3go] using h
  | case2 d x y rest r hr hlen =>
    intro v w h
    unfold ac3go at h
    rw [dif_pos hr, if_pos hlen] at h
    exact revise_subset h
  | case3 d x y rest r hr hlen ih =>
    intro v w h
    unfold ac3go at h
    rw [dif_pos hr, if_neg hlen] at h
    exact revise_subset (ih v w h)
  | case4 d x y rest r hr ih =>
    intro v w h
    unfold ac3go at h
    rw [dif_neg hr] at h
    have := ih v w h
    rwa [revise_snd_of_fst_false (by simpa using hr)] at this

theorem ac3go_false_empty {c : Crossword} :
    ∀ (arcs : List (Variable × Variable)) (d : Domains),
      (∀ p ∈ arcs, (p.1 : Variable) ∈ c.vars) →
      (ac3go c arcs d).1 = false →
      ∃ v ∈ c.vars, (ac3go c arcs d).2 v = [] := by
  intro arcs d
  induction arcs, d using ac3go.induct c with
  | case1 d =>
    intro _ hfalse
    simp [ac3go] at hfalse
  | case2 d x y rest r hr hlen =>
    intro harcs _
    refine ⟨x, harcs (x, y) (List.mem_cons_self _ _), ?_⟩
    unfold ac3go
    rw [dif_pos hr, if_pos hlen]
    exact List.length_eq_zero.mp hlen
  | case3 d x y rest r hr hlen ih =>
    intro harcs hfalse
    unfold ac3go at hfalse ⊢
    rw [dif_pos hr, if_neg hlen] at hfalse ⊢
    refine ih ?_ hfalse
    intro p hp
    rcases List.mem_append.mp hp with h1 | h1
    · exact harcs p (List.mem_cons_of_mem _ h1)
    · rcases List.mem_map.mp h1 with ⟨z, hz, hpz⟩
      have hzvars : z ∈ c.vars :=
        (List.mem_filter.mp ((List.mem_filter.mp hz).1)).1
      rw [← hpz]
      exact hzvars
  | case4 d x y rest r hr ih =>
    intro harcs hfalse
    unfold ac3go at hfalse ⊢
    rw [dif_neg hr] at hfalse ⊢
    exact ih (fun p hp => harcs p (List.mem_cons_of_mem _ hp)) hfalse

theorem mem_combinations2 {α : Type} :
    ∀ {l : List α} {p : α × α}, p ∈ combinations2 l → p.1 ∈ l ∧ p.2 ∈ l
  | [], p, h => by cases h
  | a :: t, p, h => by
    unfold combinations2 at h
    rcases List.mem_append.mp h with h1 | h1
    · rcases List.mem_map.mp h1 with ⟨y, hy, hpy⟩
      rw [← hpy]
      exact ⟨List.mem_cons_self _ _, List.mem_cons_of_mem _ hy⟩
    · have := mem_combinations2 h1
      exact ⟨List.mem_cons_of_mem _ this.1, List.mem_cons_of_mem _ this.2⟩

theorem mem_map_pair_iff {α : Type} [DecidableEq α] {a x y : α} {t : List α} :
    (x, y) ∈ t.map (fun z => (a, z)) ↔ x = a ∧ y ∈ t := by
  rw [List.mem_map]
  constructor
  · rintro ⟨z, hz, hpz⟩
    have hx : a = x := congrArg Prod.fst hpz
    have hy : z = y := congrArg Prod.snd hpz
    exact ⟨hx.symm, hy ▸ hz⟩
  · rintro ⟨hx, hy⟩
    exact ⟨y, hy, by rw [hx]⟩

theorem combinations2_one_orientation {α : Type} [DecidableEq α] :
    ∀ {l : List α}, l.Nodup → ∀ x ∈ l, ∀ y ∈ l, x ≠ y →
      (((x, y) ∈ combinations2 l ∨ (y, x) ∈ combinations2 l) ∧
       ¬(((x, y) ∈ combinations2 l) ∧ ((y, x) ∈ combinations2 l)))
  | [], _, x, hx, y, hy, hxy => by cases hx
  | a :: t, hnd, x, hx, y, hy, hxy => by
    have hat : a ∉ t := (List.nodup_cons.mp hnd).1
    have hndt : t.Nodup := (List.nodup_cons.mp hnd).2
    unfold combinations2
    simp only [List.mem_append, mem_map_pair_iff]
    rcases List.mem_cons.mp hx with hxa | hxt
    · subst hxa
      have hyt : y ∈ t := by
        rcases List.mem_cons.mp hy with h | h
        · exact absurd h.symm hxy
        · exact h
      constructor
      · exact Or.inl (Or.inl ⟨rfl, hyt⟩)
      · rintro ⟨-, hrev⟩
        rcases hrev with ⟨hya, -⟩ | hcomb
        · exact hxy (hya ▸ rfl)
        · exact hat (mem_combinations2 hcomb).2
    · rcases List.mem_cons.mp hy with hya | hyt
      · subst hya
        constructor
        · exact Or.inr (Or.inl ⟨rfl, hxt⟩)
        · rintro ⟨hfwd, -⟩
          rcases hfwd with ⟨hxa, -⟩ | hcomb
          · exact hxy (hxa ▸ rfl)
          · exact hat (mem_combinations2 hcomb).2
      · have hih := combinations2_one_orientation hndt x hxt y hyt hxy
        constructor
        · rcases hih.1 with h | h
          · exact Or.inl (Or.inr h)
          · exact Or.inr (Or.inr h)
        · rintro ⟨hfwd, hrev⟩
          have hxna : x ≠ a := fun he => hat (he ▸ hxt)
          have hyna : y ≠ a := fun he => hat (he ▸ hyt)
          rcases hfwd with ⟨hxa, -⟩ | hf
          · exact hxna hxa
          · rcases hrev with ⟨hya, -⟩ | hr
            · exact hyna hya
            · exact hih.2 ⟨hf, hr⟩

theorem consistent_of_agrees {c : Crossword} {d : Domains} {sol : Variable → Word}
    {a : Assignment} (hirr : ∀ v ∈ c.vars, c.overlaps v v = none)
    (hsol : SolutionIn c d sol) (hnd : (keysOf a).Nodup)
    (hsub : ∀ v ∈ keysOf a, v ∈ c.vars)
    (hagree : ∀ p ∈ a, sol (p.1 : Variable) = (p.2 : Word)) :
    consistent c a = true := by
  rw [consistent_iff hnd hsub hirr]
  refine ⟨?_, ?_, ?_⟩
  · intro p hp
    rw [← hagree p hp]
    exact hsol.2.1 p.1 (hsub p.1 (List.mem_map.mpr ⟨p, hp, rfl⟩))
  · have hmap : a.map Prod.snd = (keysOf a).map sol := by
      unfold keysOf
      rw [List.map_map]
      exact (List.map_congr_left (fun p hp => (hagree p hp).symm))
    rw [hmap]
    refine List.Nodup.map_on ?_ hnd
    intro x hx y hy hfe
    by_contra hne
    exact (hsol.2.2.1 x (hsub x hx) y (hsub y hy) hne) hfe
  · intro p hp q hq ij hov
    rw [← hagree p hp, ← hagree q hq]
    exact hsol.2.2.2 p.1 (hsub p.1 (List.mem_map.mpr ⟨p, hp, rfl⟩))
      q.1 (hsub q.1 (List.mem_map.mpr ⟨q, hq, rfl⟩)) ij hov

theorem keysOf_append_nodup {a : Assignment} {var : Variable} {w : Word}
    (hnd : (keysOf a).Nodup) (hkey : hasKey a var = false) :
    (keysOf (a ++ [(var, w)])).Nodup := by
  rw [keysOf_append, List.nodup_append]
  refine ⟨hnd, List.nodup_singleton _, ?_⟩
  intro v hv hv2
  rcases mem_keysOf_iff.mp hv with ⟨w2, hw2⟩
  have hk : hasKey a v = true := hasKey_iff.mpr ⟨w2, hw2⟩
  rw [show v = var by simpa using hv2] at hk
  rw [hk] at hkey
  cases hkey

theorem keysOf_append_sub {c : Crossword} {a : Assignment} {var : Variable} {w : Word}
    (hsub : ∀ v ∈ keysOf a, v ∈ c.vars) (hvv : var ∈ c.vars) :
    ∀ v ∈ keysOf (a ++ [(var, w)]), v ∈ c.vars := by
  rw [keysOf_append]
  intro v hv
  rcases List.mem_append.mp hv with h | h
  · exact hsub v h
  · rw [show v = var by simpa using h]
    exact hvv

theorem agrees_append {a : Assignment} {var : Variable} {sol : Variable → Word}
    (hagree : ∀ p ∈ a, sol (p.1 : Variable) = (p.2 : Word)) :
    ∀ p ∈ a ++ [(var, sol var)], sol (p.1 : Variable) = (p.2 : Word) := by
  intro p hp
  rcases List.mem_append.mp hp with h | h
  · exact hagree p h
  · rw [show p = (var, sol var) by simpa using h]

theorem backtrack_complete {c : Crossword} {d : Domains} {sol : Variable → Word}
    (hirr : ∀ v ∈ c.vars, c.overlaps v v = none)
    (hsol : SolutionIn c d sol) :
    ∀ a : Assignment, (keysOf a).Nodup → (∀ v ∈ keysOf a, v ∈ c.vars) →
      (∀ p ∈ a, sol (p.1 : Variable) = (p.2 : Word)) →
      backtrack c d a ≠ none := by
  refine backtrack.induct c d
    (fun a => (keysOf a).Nodup → (∀ v ∈ keysOf a, v ∈ c.vars) →
      (∀ p ∈ a, sol (p.1 : Variable) = (p.2 : Word)) → backtrack c d a ≠ none)
    (fun a var ws hvar => (keysOf a).Nodup → (∀ v ∈ keysOf a, v ∈ c.vars) →
      (∀ p ∈ a, sol (p.1 : Variable) = (p.2 : Word)) → sol var ∈ ws →
      try_words c d a var ws hvar ≠ none)
    ?_ ?_ ?_ ?_ ?_ ?_
  · intro a hcomp _ _ _
    unfold backtrack
    rw [dif_pos hcomp]
    simp
  · intro a hcomp hm2 hnd hsub hagree
    unfold backtrack
    rw [dif_neg hcomp]
    refine hm2 hnd hsub hagree ?_
    have hvarmem := select_unassigned_variable_mem c d a
      (remaining_ne_of_not_complete hcomp)
    have hvv : select_unassigned_variable c d a ∈ c.vars :=
      (mem_remaining_iff.mp hvarmem).1
    exact ((odv_perm c d _ a).mem_iff).mpr (hsol.1 _ hvv)
  · intro a var hvar _ _ _ hmem
    cases hmem
  · intro a var hvar w rest hcons2 r hbt _ _ _ _ _
    unfold try_words
    rw [if_pos hcons2, hbt]
    simp
  · intro a var hvar w rest hcons2 hbt hm1 hm2rest hnd hsub hagree hmem
    unfold try_words
    rw [if_pos hcons2, hbt]
    show try_words c d a var rest hvar ≠ none
    have hkey : hasKey a var = false := (mem_remaining_iff.mp hvar).2
    have hvv : var ∈ c.vars := (mem_remaining_iff.mp hvar).1
    by_cases hw : w = sol var
    · exfalso
      subst hw
      exact hm1 (keysOf_append_nodup hnd hkey) (keysOf_append_sub hsub hvv)
        (agrees_append hagree) hbt
    · refine hm2rest hnd hsub hagree ?_
      rcases List.mem_cons.mp hmem with h | h
      · exact absurd h.symm hw
      · exact h
  · intro a var hvar w rest hcons2 hm2rest hnd hsub hagree hmem
    unfold try_words
    rw [if_neg hcons2]
    have hkey : hasKey a var = false := (mem_remaining_iff.mp hvar).2
    have hvv : var ∈ c.vars := (mem_remaining_iff.mp hvar).1
    by_cases hw : w = sol var
    · exfalso
      subst hw
      exact hcons2 (consistent_of_agrees hirr hsol
        (keysOf_append_nodup hnd hkey) (keysOf_append_sub hsub hvv)
        (agrees_append hagree))
    · refine hm2rest hnd hsub hagree ?_
      rcases List.mem_cons.mp hmem with h | h
      · exact absurd h.symm hw
      · exact h

theorem backtrackS_frame_agree (c : Crossword) :
    ∀ (d : Domains) (a : Assignment),
      (backtrackS c d a).2 = d ∧ (backtrackS c d a).1 = backtrack c d a := by
  refine backtrackS.induct c
    (fun d a => (backtrackS c d a).2 = d ∧ (backtrackS c d a).1 = backtrack c d a)
    (fun d a var ws hvar => (try_wordsS c d a var ws hvar).2 = d ∧
      (try_wordsS c d a var ws hvar).1 = try_words c d a var ws hvar)
    ?_ ?_ ?_ ?_ ?_ ?_
  · intro d a hcomp
    unfold backtrackS backtrack
    rw [dif_pos hcomp, dif_pos hcomp]
    exact ⟨rfl, rfl⟩
  · intro d a hcomp hm2
    unfold backtrackS backtrack
    rw [dif_neg hcomp, dif_neg hcomp]
    exact hm2
  · intro d a var hvar
    unfold try_wordsS try_words
    exact ⟨rfl, rfl⟩
  · intro d a var hvar w rest hcons2 r d2 hbtS hm1
    rw [hbtS] at hm1
    have hd2 : d2 = d := hm1.1
    have hbt : backtrack c d (a ++ [(var, w)]) = some r := hm1.2.symm
    unfold try_wordsS try_words
    rw [if_pos hcons2, if_pos hcons2, hbtS, hbt]
    exact ⟨hd2, rfl⟩
  · intro d a var hvar w rest hcons2 d2 hbtS hm1 hm2
    rw [hbtS] at hm1
    have hd2 : d2 = d := hm1.1
    have hbt : backtrack c d (a ++ [(var, w)]) = none := hm1.2.symm
    subst hd2
    unfold try_wordsS try_words
    rw [if_pos hcons2, if_pos hcons2, hbtS, hbt]
    exact hm2
  · intro d a var hvar w rest hcons2 hm2
    unfold try_wordsS try_words
    rw [if_neg hcons2, if_neg hcons2]
    exact hm2

theorem backtrack_calls_pos (c : Crossword) (d : Domains) (a : Assignment) :
    1 ≤ backtrack_calls c d a := by
  unfold backtrack_calls
  split <;> omega

/-- Support characterization of `revise`: a word of `x` survives exactly
when some distinct word of `y` matches it at the overlap offsets. -/
theorem supported_iff {dy : List Word} {ij : Nat × Nat} {wx : Word} :
    supported dy ij wx = true ↔
      ∃ wy ∈ dy, charAt wx ij.1 = charAt wy ij.2 ∧ wx ≠ wy := by
  unfold supported
  rw [List.any_eq_true]
  constructor
  · rintro ⟨wy, hwy, hb⟩
    rw [Bool.and_eq_true] at hb
    exact ⟨wy, hwy, beq_iff_eq.mp hb.1, by simpa using hb.2⟩
  · rintro ⟨wy, hwy, h1, h2⟩
    refine ⟨wy, hwy, ?_⟩
    rw [Bool.and_eq_true]
    exact ⟨beq_iff_eq.mpr h1, by simpa using h2⟩

theorem revise_spec {c : Crossword} {x y : Variable} {d : Domains} {i j : Nat}
    (hov : c.overlaps x y = some (i, j)) :
    (∀ wx : Word, wx ∈ (revise c x y d).2 x ↔
      (wx ∈ d x ∧ ∃ wy ∈ d y, charAt wx i = charAt wy j ∧ wx ≠ wy)) ∧
    (∀ v : Variable, v ≠ x → (revise c x y d).2 v = d v) ∧
    ((revise c x y d).1 = true ↔
      ∃ wx ∈ d x, ¬ ∃ wy ∈ d y, charAt wx i = charAt wy j ∧ wx ≠ wy) := by
  have hrw1 : (revise c x y d).1 =
      (if ((d x).filter (fun wx => !(supported (d y) (i, j) wx))).length = 0
        then ((false : Bool), d)
        else (true, updateD d x ((d x).filter (fun wx => supported (d y) (i, j) wx)))).1 := by
    unfold revise
    rw [hov]
  have hrw2 : (revise c x y d).2 =
      (if ((d x).filter (fun wx => !(supported (d y) (i, j) wx))).length = 0
        then ((false : Bool), d)
        else (true, updateD d x ((d x).filter (fun wx => supported (d y) (i, j) wx)))).2 := by
    unfold revise
    rw [hov]
  by_cases hz : ((d x).filter (fun wx => !(supported (d y) (i, j) wx))).length = 0
  · rw [if_pos hz] at hrw1 hrw2
    have hall : ∀ wx ∈ d x, supported (d y) (i, j) wx = true := by
      intro wx hwx
      have hnil := List.length_eq_zero.mp hz
      by_contra hns
      have : wx ∈ (d x).filter (fun wx => !(supported (d y) (i, j) wx)) := by
        rw [List.mem_filter]
        exact ⟨hwx, by simpa using hns⟩
      rw [hnil] at this
      cases this
    refine ⟨?_, ?_, ?_⟩
    · intro wx
      rw [hrw2]
      constructor
      · intro hwx
        exact ⟨hwx, supported_iff.mp (hall wx hwx)⟩
      · exact fun h => h.1
    · intro v _
      rw [hrw2]
    · rw [hrw1]
      simp only [Bool.false_eq_true, false_iff]
      rintro ⟨wx, hwx, hno⟩
      exact hno (supported_iff.mp (hall wx hwx))
  · rw [if_neg hz] at hrw1 hrw2
    refine ⟨?_, ?_, ?_⟩
    · intro wx
      rw [hrw2]
      show wx ∈ updateD d x ((d x).filter (fun wx => supported (d y) (i, j) wx)) x ↔ _
      unfold updateD
      rw [if_pos rfl, List.mem_filter]
      constructor
      · rintro ⟨h1, h2⟩
        exact ⟨h1, supported_iff.mp h2⟩
      · rintro ⟨h1, h2⟩
        exact ⟨h1, supported_iff.mpr h2⟩
    · intro v hv
      rw [hrw2]
      show updateD d x _ v = d v
      unfold updateD
      rw [if_neg hv]
    · rw [hrw1]
      simp only [true_iff]
      rcases List.exists_mem_of_length_pos (Nat.pos_of_ne_zero hz) with ⟨wx, hwx⟩
      rw [List.mem_filter] at hwx
      refine ⟨wx, hwx.1, ?_⟩
      intro hsup
      have hs : supported (d y) (i, j) wx = true :=
        (@supported_iff (d y) (i, j) wx).mpr hsup
      have hfalse := hwx.2
      rw [hs] at hfalse
      simpa using hfalse

/-- Slots and words of the concrete crosswords used as evaluation
instances. -/
def vA1 : Variable := ⟨0, 0, Direction.across, 2⟩

def vD1 : Variable := ⟨0, 0, Direction.down, 2⟩

def wAB : Word := ['A', 'B']

def wAD : Word := ['A', 'D']

def wCD : Word := ['C', 'D']

/-- Concrete crossword: two crossing slots of length 2 sharing their first
cells, with a one-word vocabulary (arc consistency must fail). -/
def cw0 : Crossword :=
  ⟨[vA1, vD1], [wAB],
   fun x y =>
     if (x = vA1 ∧ y = vD1) ∨ (x = vD1 ∧ y = vA1) then some (0, 0) else none⟩

/-- Concrete crossword: a single slot of length 2 and one word of length 2
(solvable immediately). -/
def cw2 : Crossword := ⟨[vA1], [wAB], fun _ _ => none⟩

/-- Domain Store exercising `revise` on `cw0`. -/
def d4 : Domains := fun v => if v = vA1 then [wAB, wCD] else [wAB, wAD]

/-- Slots of the degree-tie-break instance. -/
def v6A : Variable := ⟨0, 0, Direction.across, 2⟩

def v6B : Variable := ⟨1, 0, Direction.across, 2⟩

def v6C : Variable := ⟨2, 0, Direction.across, 2⟩

def v6D : Variable := ⟨3, 0, Direction.across, 2⟩

def v6E : Variable := ⟨4, 0, Direction.across, 2⟩

/-- Concrete crossword with crossing pairs A-C, A-D, A-E, B-D, C-E, so the
slot degrees are A:3, B:1, C:2, D:2, E:2. -/
def cw6 : Crossword :=
  ⟨[v6A, v6B, v6C, v6D, v6E], [wAB],
   fun x y =>
     if (x = v6A ∧ y = v6C) ∨ (x = v6C ∧ y = v6A) ∨
        (x = v6A ∧ y = v6D) ∨ (x = v6D ∧ y = v6A) ∨
        (x = v6A ∧ y = v6E) ∨ (x = v6E ∧ y = v6A) ∨
        (x = v6B ∧ y = v6D) ∨ (x = v6D ∧ y = v6B) ∨
        (x = v6C ∧ y = v6E) ∨ (x = v6E ∧ y = v6C)
     then some (0, 0) else none⟩

/-- Domain Store giving every slot of `cw6` the same one-word domain, so
slots A, B and C tie on MRV. -/
def d6 : Domains := fun _ => [wAB]

/-- Partial assignment on `cw6` covering D and E, leaving A, B, C
unassigned and MRV-tied. -/
def a6 : Assignment := [(v6D, wAB), (v6E, wAB)]

/-- C1: for every well-formed crossword, if a consistent complete
assignment exists inside the original pre-propagation domains (the full
vocabulary for every slot), then `solve` returns some complete and
globally consistent assignment; equivalently, `solve` returns `none` only
when no such assignment exists. -/
theorem claim_C1_backtracking_completeness (c : Crossword)
    (hwf : crosswordWF c = true) (sol : Variable → Word)
    (hsol : SolutionIn c (initDomains c) sol) :
    ∃ r : Assignment, solve c = some r ∧
      assignment_complete c r = true ∧ ConsistentAssign c r := by
  have hirr := wf_irrefl hwf
  have hsol1 : SolutionIn c (enforce_node_consistency (initDomains c)) sol :=
    enforceNC_keeps_sol hsol
  have hsol2 : SolutionIn c
      ((ac3go c (combinations2 c.vars) (enforce_node_consistency (initDomains c))).2)
      sol :=
    ac3go_keeps_sol hirr (combinations2 c.vars)
      (enforce_node_consistency (initDomains c))
      (fun p hp => mem_combinations2 hp) hsol1
  have hne : backtrack c
      (ac3 c none (enforce_node_consistency (initDomains c))).2 [] ≠ none :=
    backtrack_complete hirr hsol2 [] (by simp [keysOf]) (by simp [keysOf]) (by simp)
  cases hs : solve c with
  | none =>
    exfalso
    apply hne
    rw [← hs]
    rfl
  | some r =>
    have hbt : backtrack c
        (ac3 c none (enforce_node_consistency (initDomains c))).2 [] = some r := hs
    have hsound := backtrack_sound_aux _ c _ [] rfl (by simp [keysOf])
      (by simp [keysOf]) (consistent_nil c) r hbt
    refine ⟨r, rfl, hsound.1, ?_⟩
    exact (consistent_iff hsound.2.2.1 hsound.2.2.2.1 hirr).mp hsound.2.1

/-- C1 witness: the single-slot crossword `cw2` has the obvious solution,
its hypotheses hold, and therefore `solve` succeeds on it. -/
theorem claim_C1_witness :
    crosswordWF cw2 = true ∧
    ∃ r : Assignment, solve cw2 = some r ∧
      assignment_complete cw2 r = true ∧ ConsistentAssign cw2 r :=
  ⟨by decide,
   claim_C1_backtracking_completeness cw2 (by decide) (fun _ => wAB)
    ⟨by decide, by decide, by decide,
     by intro u hu v hv ij h; simp only [cw2] at h; cases h⟩⟩

/-- C2: every assignment returned by `backtrack` from the empty assignment
(over any Domain Store), and every assignment returned by `solve`, is
complete and globally consistent: all lengths match, all words are
pairwise distinct, and all crossing assigned slots agree at the overlap
offsets. -/
theorem claim_C2_backtracking_soundness (c : Crossword)
    (hwf : crosswordWF c = true) :
    (∀ (d : Domains) (r : Assignment), backtrack c d [] = some r →
       assignment_complete c r = true ∧ ConsistentAssign c r) ∧
    (∀ r : Assignment, solve c = some r →
       assignment_complete c r = true ∧ ConsistentAssign c r) := by
  have hirr := wf_irrefl hwf
  have key : ∀ (d : Domains) (r : Assignment), backtrack c d [] = some r →
      assignment_complete c r = true ∧ ConsistentAssign c r := by
    intro d r hbt
    have hsound := backtrack_sound_aux _ c d [] rfl (by simp [keysOf])
      (by simp [keysOf]) (consistent_nil c) r hbt
    exact ⟨hsound.1,
      (consistent_iff hsound.2.2.1 hsound.2.2.2.1 hirr).mp hsound.2.1⟩
  refine ⟨key, ?_⟩
  intro r hs
  exact key _ r hs

/-- C2 witness: `solve` on the single-slot crossword returns the one-entry
assignment, which the soundness theorem certifies complete and
consistent. -/
theorem claim_C2_witness :
    solve cw2 = some [(vA1, wAB)] ∧
    (assignment_complete cw2 [(vA1, wAB)] = true ∧
      ConsistentAssign cw2 [(vA1, wAB)]) := by
  have hsolve : solve cw2 = some [(vA1, wAB)] := by
    have hac3 : ac3 cw2 none (enforce_node_consistency (initDomains cw2)) =
        (true, enforce_node_consistency (initDomains cw2)) := by
      show ac3go cw2 [] (enforce_node_consistency (initDomains cw2)) = _
      unfold ac3go
      rfl
    have hstep : solve cw2 =
        backtrack cw2 (enforce_node_consistency (initDomains cw2)) [] := by
      unfold solve
      rw [hac3]
    rw [hstep]
    have hodv : order_domain_values cw2
        (enforce_node_consistency (initDomains cw2)) vA1 [] = [wAB] := by
      unfold order_domain_values
      have hd : enforce_node_consistency (initDomains cw2) vA1 = [wAB] := rfl
      rw [hd]
      exact List.mergeSort_singleton _
    have hsel : select_unassigned_variable cw2
        (enforce_node_consistency (initDomains cw2)) [] = vA1 := by decide
    unfold backtrack
    rw [dif_neg (by decide)]
    rw [try_words.eq_def]
    simp only [hsel, hodv]
    rw [if_pos (by decide)]
    have hbt2 : backtrack cw2 (enforce_node_consistency (initDomains cw2))
        ([] ++ [(vA1, wAB)]) = some [(vA1, wAB)] := by
      unfold backtrack
      rw [dif_pos (by decide)]
      rfl
    rw [hbt2]
  exact ⟨hsolve,
    (claim_C2_backtracking_soundness cw2 (by decide)).2 [(vA1, wAB)] hsolve⟩

/-- C3 counterexample: on `cw0` the `ac3` pass run by `solve` reports an
emptied domain, yet the backtracking search is still entered (the
instrumented run performs at least one `backtrack` invocation), so `solve`
does not return early without search as the claim states. -/
theorem claim_C3_counterexample :
    (ac3 cw0 none (enforce_node_consistency (initDomains cw0))).1 = false ∧
    1 ≤ solve_backtrack_calls cw0 := by
  constructor
  · show (ac3go cw0 [(vA1, vD1)] (enforce_node_consistency (initDomains cw0))).1
      = false
    unfold ac3go
    rw [dif_pos (by decide), if_pos (by decide)]
  · exact backtrack_calls_pos cw0 _ []

/-- C3 amended: `solve` ignores the boolean returned by `ac3` and always
proceeds into backtracking search (at least one `backtrack` invocation);
when the `ac3` pass has emptied some domain, that search necessarily
fails, so `solve` still returns the no-solution result, only not by an
early return. -/
theorem claim_C3_amended_solve_after_ac3_failure (c : Crossword)
    (hfail : (ac3 c none (enforce_node_consistency (initDomains c))).1 = false) :
    solve c = none ∧ 1 ≤ solve_backtrack_calls c := by
  constructor
  · cases hs : solve c with
    | none => rfl
    | some r =>
      exfalso
      have hbt : backtrack c
          (ac3 c none (enforce_node_consistency (initDomains c))).2 [] = some r := hs
      have hsound := backtrack_sound_aux _ c _ [] rfl (by simp [keysOf])
        (by simp [keysOf]) (consistent_nil c) r hbt
      have harcs : ∀ p ∈ combinations2 c.vars, (p.1 : Variable) ∈ c.vars :=
        fun p hp => (mem_combinations2 hp).1
      have hemp := @ac3go_false_empty c (combinations2 c.vars)
        (enforce_node_consistency (initDomains c)) harcs hfail
      rcases hemp with ⟨v, hv, hdv⟩
      have hkey : hasKey r v = true := by
        have hcomp := hsound.1
        unfold assignment_complete at hcomp
        rw [List.all_eq_true] at hcomp
        exact hcomp v hv
      rcases hasKey_iff.mp hkey with ⟨w, hw⟩
      rcases hsound.2.2.2.2 (v, w) hw with h | h
      · cases h
      · have h2 : w ∈ (ac3go c (combinations2 c.vars)
            (enforce_node_consistency (initDomains c))).2 v := h
        rw [hdv] at h2
        cases h2
  · exact backtrack_calls_pos c _ []

/-- C3 witness: on `cw0` the failure hypothesis holds concretely, and the
amended theorem yields the no-solution result with search entered. -/
theorem claim_C3_witness :
    (ac3 cw0 none (enforce_node_consistency (initDomains cw0))).1 = false ∧
    (solve cw0 = none ∧ 1 ≤ solve_backtrack_calls cw0) := by
  have hfail : (ac3 cw0 none (enforce_node_consistency (initDomains cw0))).1
      = false := by
    show (ac3go cw0 [(vA1, vD1)] (enforce_node_consistency (initDomains cw0))).1
      = false
    unfold ac3go
    rw [dif_pos (by decide), if_pos (by decide)]
  exact ⟨hfail, claim_C3_amended_solve_after_ac3_failure cw0 hfail⟩

/-- C4: for crossing slots with overlap offsets, `revise x y` keeps in the
domain of `x` exactly the words having a distinct supporting word of `y`
at the overlap (removing exactly the unsupported ones), leaves every other
slot's domain unchanged, and returns true exactly when some word was
removed. -/
theorem claim_C4_revise_removals (c : Crossword) (x y : Variable) (d : Domains)
    (i j : Nat) (hov : c.overlaps x y = some (i, j)) :
    (∀ wx : Word, wx ∈ (revise c x y d).2 x ↔
      (wx ∈ d x ∧ ∃ wy ∈ d y, charAt wx i = charAt wy j ∧ wx ≠ wy)) ∧
    (∀ v : Variable, v ≠ x → (revise c x y d).2 v = d v) ∧
    ((revise c x y d).1 = true ↔
      ∃ wx ∈ d x, ¬ ∃ wy ∈ d y, charAt wx i = charAt wy j ∧ wx ≠ wy) :=
  revise_spec hov

/-- C4 witness: on `cw0` with domains `d4`, the overlap hypothesis holds
concretely and the characterization applies. -/
theorem claim_C4_witness :
    cw0.overlaps vA1 vD1 = some (0, 0) ∧
    ((∀ wx : Word, wx ∈ (revise cw0 vA1 vD1 d4).2 vA1 ↔
       (wx ∈ d4 vA1 ∧ ∃ wy ∈ d4 vD1, charAt wx 0 = charAt wy 0 ∧ wx ≠ wy)) ∧
     (∀ v : Variable, v ≠ vA1 → (revise cw0 vA1 vD1 d4).2 v = d4 v) ∧
     ((revise cw0 vA1 vD1 d4).1 = true ↔
       ∃ wx ∈ d4 vA1, ¬ ∃ wy ∈ d4 vD1, charAt wx 0 = charAt wy 0 ∧ wx ≠ wy)) :=
  ⟨by decide, claim_C4_revise_removals cw0 vA1 vD1 d4 0 0 (by decide)⟩

/-- C5 counterexample: on `cw0` the slots are distinct, yet the default
seeding of `ac3` (`itertools.combinations` over the slot list) contains
the pair in only one orientation; the reverse arc is never enqueued
initially, contradicting the claim that both orientations are seeded. -/
theorem claim_C5_counterexample :
    vA1 ∈ cw0.vars ∧ vD1 ∈ cw0.vars ∧ vA1 ≠ vD1 ∧
    (vA1, vD1) ∈ combinations2 cw0.vars ∧
    (vD1, vA1) ∉ combinations2 cw0.vars := by decide

/-- C5 amended: when called with no initial arc list, `ac3` seeds its
worklist with `itertools.combinations` of the slot list: every unordered
pair of distinct slots appears in exactly one orientation, never both. -/
theorem claim_C5_amended_seeding (c : Crossword) (hnd : c.vars.Nodup) :
    (∀ (arcs : Option (List (Variable × Variable))) (d : Domains),
      ac3 c arcs d = ac3go c (arcs.getD (combinations2 c.vars)) d) ∧
    (∀ x ∈ c.vars, ∀ y ∈ c.vars, x ≠ y →
      (((x, y) ∈ combinations2 c.vars ∨ (y, x) ∈ combinations2 c.vars) ∧
       ¬(((x, y) ∈ combinations2 c.vars) ∧ ((y, x) ∈ combinations2 c.vars)))) :=
  ⟨fun _ _ => rfl,
   fun x hx y hy hxy => combinations2_one_orientation hnd x hx y hy hxy⟩

/-- C5 amended witness: instantiated on the two-slot crossword `cw0`. -/
theorem claim_C5_witness :
    cw0.vars.Nodup ∧
    ((∀ (arcs : Option (List (Variable × Variable))) (d : Domains),
       ac3 cw0 arcs d = ac3go cw0 (arcs.getD (combinations2 cw0.vars)) d) ∧
     (∀ x ∈ cw0.vars, ∀ y ∈ cw0.vars, x ≠ y →
       (((x, y) ∈ combinations2 cw0.vars ∨ (y, x) ∈ combinations2 cw0.vars) ∧
        ¬(((x, y) ∈ combinations2 cw0.vars) ∧
          ((y, x) ∈ combinations2 cw0.vars))))) :=
  ⟨by decide, claim_C5_amended_seeding cw0 (by decide)⟩

/-- C6: on the crossword `cw6` with slots A, B, C unassigned and tied on
minimum remaining values, `select_unassigned_variable` returns slot C with
2 neighbors although the tied slot A has 3 neighbors: the degree
tie-break compares neighbor counts against a list index and fails to pick
the maximum-degree slot, contradicting the claim and the method's own
docstring. -/
theorem claim_C6_degree_tiebreak_bug :
    select_unassigned_variable cw6 d6 a6 = v6C ∧
    v6A ∈ remaining_vars cw6 a6 ∧ v6C ∈ remaining_vars cw6 a6 ∧
    (d6 v6A).length = (d6 v6C).length ∧
    (neighbors cw6 v6C).length < (neighbors cw6 v6A).length := by decide

/-- C7: `order_domain_values` returns exactly the words of the slot's
domain, in ascending order of the number of candidate values each word
would eliminate from the domains of unassigned neighboring slots (a
neighbor's candidate is eliminated when it is identical to the chosen word
or conflicts with it at the overlap offsets). -/
theorem claim_C7_least_constraining_order (c : Crossword) (d : Domains)
    (var : Variable) (a : Assignment) :
    (order_domain_values c d var a).Perm (d var) ∧
    (order_domain_values c d var a).Pairwise
      (fun w1 w2 => elimCount c d a var w1 ≤ elimCount c d a var w2) := by
  constructor
  · exact List.mergeSort_perm _ _
  · have hs := @List.sorted_mergeSort Word
      (fun w1 w2 => decide (elimCount c d a var w1 ≤ elimCount c d a var w2))
      (fun w1 w2 w3 h12 h23 => by
        have a1 := of_decide_eq_true h12
        have a2 := of_decide_eq_true h23
        exact decide_eq_true (Nat.le_trans a1 a2))
      (fun w1 w2 => by
        rw [Bool.or_eq_true]
        rcases Nat.le_total (elimCount c d a var w1) (elimCount c d a var w2)
            with h | h
        · exact Or.inl (decide_eq_true h)
        · exact Or.inr (decide_eq_true h))
      (d var)
    refine List.Pairwise.imp ?_ hs
    intro w1 w2 h
    exact of_decide_eq_true h

/-- C8: node consistency establishes the length invariant, and the
domain-mutating propagation operations only ever remove words: `revise`
and the whole `ac3` pass (on any worklist) shrink domains pointwise, so
after the `solve` pipeline's propagation every remaining word still has
its slot's exact length. -/
theorem claim_C8_domains_shrink (c : Crossword) :
    (∀ (d : Domains) (v : Variable) (w : Word),
       w ∈ enforce_node_consistency d v → w.length = v.length) ∧
    (∀ (x y : Variable) (d : Domains) (v : Variable) (w : Word),
       w ∈ (revise c x y d).2 v → w ∈ d v) ∧
    (∀ (arcs : List (Variable × Variable)) (d : Domains) (v : Variable) (w : Word),
       w ∈ (ac3go c arcs d).2 v → w ∈ d v) ∧
    (∀ (arcs : Option (List (Variable × Variable))) (d : Domains) (v : Variable)
       (w : Word), w ∈ (ac3 c arcs d).2 v → w ∈ d v) ∧
    (∀ (v : Variable) (w : Word),
       w ∈ (ac3 c none (enforce_node_consistency (initDomains c))).2 v →
         w.length = v.length) := by
  have hnc : ∀ (d : Domains) (v : Variable) (w : Word),
      w ∈ enforce_node_consistency d v → w.length = v.length := by
    intro d v w h
    unfold enforce_node_consistency at h
    rw [List.mem_filter] at h
    exact beq_iff_eq.mp h.2
  have hac : ∀ (arcs : Option (List (Variable × Variable))) (d : Domains)
      (v : Variable) (w : Word), w ∈ (ac3 c arcs d).2 v → w ∈ d v := by
    intro arcs d v w h
    exact ac3go_subset _ _ v w h
  refine ⟨hnc, ?_, ?_, hac, ?_⟩
  · intro x y d v w h
    exact revise_subset h
  · intro arcs d v w h
    exact ac3go_subset arcs d v w h
  · intro v w h
    exact hnc _ v w (hac none _ v w h)

/-- C9: the backtracking search never mutates the Domain Store: the
state-threading rendering of `backtrack` returns the store it was given
unchanged on every call, successful or failing, and computes the same
result as `backtrack`. -/
theorem claim_C9_search_frame (c : Crossword) (d : Domains) (a : Assignment) :
    (backtrackS c d a).2 = d ∧ (backtrackS c d a).1 = backtrack c d a :=
  backtrackS_frame_agree c d a

/-- C10: when two slots do not cross (their overlap entry is absent),
`revise` returns false and leaves the whole Domain Store untouched,
without ever reading the absent offsets. -/
theorem claim_C10_revise_no_overlap (c : Crossword) (x y : Variable)
    (d : Domains) (hov : c.overlaps x y = none) :
    revise c x y d = (false, d) := by
  unfold revise
  rw [hov]

/-- C10 witness: the one-slot crossword has no crossing pairs, and
`revise` on it is the identity with a false flag. -/
theorem claim_C10_witness :
    cw2.overlaps vA1 vD1 = none ∧ revise cw2 vA1 vD1 d4 = (false, d4) :=
  ⟨by decide, claim_C10_revise_no_overlap cw2 vA1 vD1 d4 (by decide)⟩
